import Mathlib

/-!
# Verification of the Recipe viewer's extraction/normalization pipeline

Shallow embedding of the pure data-processing functions of `Recipe.py`:
the text normalizer, the nutrition-text parser, the summary nutrition
extractor, the equipment collector, the ingredient original-text index,
the LLM response sanitizer (fence stripping + JSON parsing), the cost
prompt builder, the money formatting of the cost result, and the
step-display decision logic.

Strings are modelled as Lean `String`/`List Char`; the ASCII fragments of
Python's `str.lower`, `str.strip` and the regex character classes `\w`,
`\s` are modelled explicitly.
-/

namespace Recipe

/-! ## Character-level groundwork

`spaceChar` models Python's regex class `\s` (and the default strip set of
`str.strip`) on ASCII; `wordChar` models the regex class `\w` on ASCII. -/

/-- Python regex `\s` (ASCII): space, tab, newline, carriage return,
vertical tab, form feed. -/
def spaceChar (c : Char) : Bool :=
  decide (c = ' ' ∨ c = '\t' ∨ c = '\n' ∨ c = '\r' ∨ c = '\x0b' ∨ c = '\x0c')

/-- Python regex `\w` (ASCII): letters, digits, underscore. -/
def wordChar (c : Char) : Bool :=
  decide (c = '_' ∨ (48 ≤ c.toNat ∧ c.toNat ≤ 57) ∨ (65 ≤ c.toNat ∧ c.toNat ≤ 90) ∨
    (97 ≤ c.toNat ∧ c.toNat ≤ 122))

theorem charToNat_ofNat {n : Nat} (h : n.isValidChar) : (Char.ofNat n).toNat = n := by
  rw [Char.ofNat, dif_pos h]
  rfl

theorem charToNat_inj {a b : Char} (h : a.toNat = b.toNat) : a = b := by
  have h2 : Char.ofNat a.toNat = Char.ofNat b.toNat := by rw [h]
  rwa [Char.ofNat_toNat, Char.ofNat_toNat] at h2

theorem char_eq_iff_toNat {a b : Char} : a = b ↔ a.toNat = b.toNat :=
  ⟨fun h => h ▸ rfl, charToNat_inj⟩

theorem spaceChar_iff {c : Char} : spaceChar c = true ↔
    c.toNat = 32 ∨ c.toNat = 9 ∨ c.toNat = 10 ∨ c.toNat = 13 ∨ c.toNat = 11 ∨ c.toNat = 12 := by
  simp only [spaceChar, decide_eq_true_eq]
  rw [@char_eq_iff_toNat c ' ', @char_eq_iff_toNat c '\t', @char_eq_iff_toNat c '\n',
    @char_eq_iff_toNat c '\r', @char_eq_iff_toNat c '\x0b', @char_eq_iff_toNat c '\x0c']
  exact Iff.rfl

theorem wordChar_iff {c : Char} : wordChar c = true ↔
    c.toNat = 95 ∨ (48 ≤ c.toNat ∧ c.toNat ≤ 57) ∨ (65 ≤ c.toNat ∧ c.toNat ≤ 90) ∨
    (97 ≤ c.toNat ∧ c.toNat ≤ 122) := by
  simp only [wordChar, decide_eq_true_eq]
  rw [@char_eq_iff_toNat c '_']
  exact Iff.rfl

theorem toLower_toNat (c : Char) : c.toLower.toNat =
    if 65 ≤ c.toNat ∧ c.toNat ≤ 90 then c.toNat + 32 else c.toNat := by
  unfold Char.toLower
  split
  · next h =>
    rw [if_pos ⟨h.1, h.2⟩]
    exact charToNat_ofNat (Or.inl (by omega))
  · next h =>
    rw [if_neg h]

/-- On a non-uppercase character, `toLower` is the identity. -/
theorem toLower_eq_self {c : Char} (h : ¬(65 ≤ c.toNat ∧ c.toNat ≤ 90)) :
    c.toLower = c := by
  apply charToNat_inj
  rw [toLower_toNat, if_neg h]

theorem toLower_idem (c : Char) : c.toLower.toLower = c.toLower := by
  by_cases h : 65 ≤ c.toNat ∧ c.toNat ≤ 90
  · apply toLower_eq_self
    rw [toLower_toNat, if_pos h]
    omega
  · rw [toLower_eq_self h, toLower_eq_self h]

theorem toLower_toNat_ne_space {c : Char} (h : c.toNat ≠ 32) : c.toLower.toNat ≠ 32 := by
  rw [toLower_toNat]
  split <;> omega

/-! ## 4.1 Text Normalizer (`normalize_ingredient_name`)

Source (`Recipe.py`, lines 45-57):
```
name = name.replace("-", " ")
name = re.sub(r"[^\w\s]", "", name)
name = re.sub(r"\s+", " ", name)
return name.strip().lower()
```
-/

/-- `name.replace("-", " ")`. -/
def hyphenToSpace (l : List Char) : List Char :=
  l.map fun c => if c = '-' then ' ' else c

/-- `re.sub(r"[^\w\s]", "", name)`: keep only word and whitespace characters. -/
def keepWordSpace (l : List Char) : List Char :=
  l.filter fun c => wordChar c || spaceChar c

/-- `re.sub(r"\s+", " ", name)`: each maximal run of whitespace becomes one
space.  Implemented by dropping a whitespace character whose successor is also
whitespace and replacing the surviving one with `' '`, which yields exactly one
`' '` per run. -/
def collapseWS : List Char → List Char
  | [] => []
  | [c] => if spaceChar c then [' '] else [c]
  | a :: b :: rest =>
    if spaceChar a && spaceChar b then collapseWS (b :: rest)
    else (if spaceChar a then ' ' else a) :: collapseWS (b :: rest)

/-- `str.strip()`: remove leading and trailing whitespace. -/
def stripWS (l : List Char) : List Char :=
  (l.dropWhile spaceChar).rdropWhile spaceChar

/-- `str.lower()` (ASCII model). -/
def lowerChars (l : List Char) : List Char :=
  l.map Char.toLower

/-- The whole normalizer pipeline on character lists, in source order. -/
def normalizeChars (l : List Char) : List Char :=
  lowerChars (stripWS (collapseWS (keepWordSpace (hyphenToSpace l))))

/-- `normalize_ingredient_name` from `Recipe.py`. -/
def normalize_ingredient_name (s : String) : String :=
  ⟨normalizeChars s.data⟩

/-! ### Idempotence of the normalizer

A character list is in canonical form when every character is a
lower-case-stable word character or a single space, no two spaces are
adjacent, and neither end is a space.  The pipeline always produces
canonical form, and fixes every canonical list. -/

/-- The canonical form produced by `normalizeChars`. -/
def Canon (l : List Char) : Prop :=
  (∀ c ∈ l, (wordChar c = true ∧ c.toLower = c) ∨ c = ' ') ∧
  List.Chain' (fun a b => ¬(a = ' ' ∧ b = ' ')) l ∧
  l.head? ≠ some ' ' ∧ l.getLast? ≠ some ' '

theorem wordChar_not_space {c : Char} (h : wordChar c = true) : spaceChar c = false := by
  rw [wordChar_iff] at h
  by_contra hs
  rw [Bool.not_eq_false, spaceChar_iff] at hs
  omega

theorem eq_space_of_spaceChar_toLower {d : Char} (h : d.toLower = ' ') : d = ' ' := by
  apply charToNat_inj
  show d.toNat = 32
  have h2 : d.toLower.toNat = 32 := by rw [h]; rfl
  rw [toLower_toNat] at h2
  split at h2 <;> omega

theorem wordChar_toLower {d : Char} (h : wordChar d = true) :
    wordChar d.toLower = true := by
  rw [wordChar_iff] at h ⊢
  rw [toLower_toNat]
  split <;> omega

theorem collapseWS_head? (l : List Char) :
    (collapseWS l).head? = l.head?.map (fun c => if spaceChar c then ' ' else c) := by
  induction l using collapseWS.induct with
  | case1 => rfl
  | case2 c h => simp [collapseWS, h]
  | case3 c h => simp [collapseWS, h]
  | case4 a b rest h ih =>
    rw [collapseWS, if_pos h, ih]
    rw [Bool.and_eq_true] at h
    simp [h.1, h.2]
  | case5 a b rest h ih =>
    rw [collapseWS, if_neg h]
    rfl

theorem collapseWS_mem {l : List Char} {c : Char} (h : c ∈ collapseWS l) :
    c = ' ' ∨ (c ∈ l ∧ spaceChar c = false) := by
  induction l using collapseWS.induct with
  | case1 => simp [collapseWS] at h
  | case2 d hd =>
    rw [collapseWS, if_pos hd, List.mem_singleton] at h
    exact Or.inl h
  | case3 d hd =>
    rw [collapseWS, if_neg hd, List.mem_singleton] at h
    exact Or.inr ⟨by simp [h], by rw [h]; simpa using hd⟩
  | case4 a b rest hab ih =>
    rw [collapseWS, if_pos hab] at h
    rcases ih h with h' | ⟨hm, hs⟩
    · exact Or.inl h'
    · exact Or.inr ⟨List.mem_cons_of_mem _ hm, hs⟩
  | case5 a b rest hab ih =>
    rw [collapseWS, if_neg hab] at h
    rcases List.mem_cons.mp h with h' | h'
    · by_cases ha : spaceChar a
      · rw [if_pos ha] at h'
        exact Or.inl h'
      · rw [if_neg ha] at h'
        exact Or.inr ⟨by simp [h'], by rw [h']; simpa using ha⟩
    · rcases ih h' with h'' | ⟨hm, hs⟩
      · exact Or.inl h''
      · exact Or.inr ⟨List.mem_cons_of_mem _ hm, hs⟩

theorem collapseWS_chain' (l : List Char) :
    List.Chain' (fun a b => ¬(spaceChar a = true ∧ spaceChar b = true)) (collapseWS l) := by
  induction l using collapseWS.induct with
  | case1 => simp [collapseWS]
  | case2 c h => simp [collapseWS, h]
  | case3 c h => simp [collapseWS, h]
  | case4 a b rest hab ih =>
    rwa [collapseWS, if_pos hab]
  | case5 a b rest hab ih =>
    rw [collapseWS, if_neg hab]
    rcases hc : (collapseWS (b :: rest)).head? with _ | c
    · exact List.chain'_cons'.mpr ⟨fun y hy => by simp [hc] at hy, ih⟩
    · refine List.chain'_cons'.mpr ⟨fun y hy => ?_, ih⟩
      rw [hc, Option.mem_def, Option.some.injEq] at hy
      subst hy
      rw [collapseWS_head?] at hc
      simp only [List.head?_cons, Option.map_some', Option.some.injEq] at hc
      rw [Bool.and_eq_true] at hab
      intro hcontra
      by_cases hb2 : spaceChar b
      · -- b is whitespace, so a is not; the emitted char is a itself
        have ha : spaceChar a = false := by
          rcases Bool.eq_false_or_eq_true (spaceChar a) with h' | h'
          · exact absurd ⟨h', hb2⟩ hab
          · exact h'
        rw [if_neg (by simp [ha])] at hcontra
        rw [ha] at hcontra
        simp at hcontra
      · rw [if_neg hb2] at hc
        rw [hc] at hb2
        exact hb2 hcontra.2

theorem map_fix {l : List α} {f : α → α} (h : ∀ c ∈ l, f c = c) : l.map f = l := by
  induction l with
  | nil => rfl
  | cons a t ih =>
    rw [List.map_cons, h a (List.mem_cons_self a t), ih fun c hc => h c (List.mem_cons_of_mem a hc)]

theorem collapseWS_fix {l : List Char} (hsp : ∀ c ∈ l, spaceChar c = true → c = ' ')
    (hch : List.Chain' (fun a b => ¬(a = ' ' ∧ b = ' ')) l) : collapseWS l = l := by
  induction l using collapseWS.induct with
  | case1 => rfl
  | case2 c h =>
    rw [collapseWS, if_pos h, hsp c (List.mem_singleton_self c) h]
  | case3 c h =>
    rw [collapseWS, if_neg h]
  | case4 a b rest hab ih =>
    rw [Bool.and_eq_true] at hab
    have ha := hsp a (List.mem_cons_self _ _) hab.1
    have hb := hsp b (List.mem_cons_of_mem _ (List.mem_cons_self _ _)) hab.2
    exact absurd ⟨ha, hb⟩ (List.chain'_cons.mp hch).1
  | case5 a b rest hab ih =>
    rw [collapseWS, if_neg hab]
    have hrec := ih (fun c hc hs => hsp c (List.mem_cons_of_mem a hc) hs)
      (List.chain'_cons.mp hch).2
    rw [hrec]
    by_cases ha : spaceChar a
    · rw [if_pos ha, hsp a (List.mem_cons_self _ _) ha]
    · rw [if_neg ha]

theorem head?_dropWhile_not {l : List α} {p : α → Bool} {c : α}
    (h : (l.dropWhile p).head? = some c) : p c = false := by
  induction l with
  | nil => simp at h
  | cons a t ih =>
    by_cases hp : p a
    · rw [List.dropWhile_cons_of_pos hp] at h
      exact ih h
    · rw [List.dropWhile_cons_of_neg hp, List.head?_cons, Option.some.injEq] at h
      subst h
      simpa using hp

theorem head?_of_isPrefix {l₁ l₂ : List α} (h : l₁ <+: l₂) {c : α}
    (hc : l₁.head? = some c) : l₂.head? = some c := by
  obtain ⟨t, rfl⟩ := h
  cases l₁ with
  | nil => simp at hc
  | cons a t' => simpa using hc

theorem getLast?_rdropWhile_not {l : List α} {p : α → Bool} {c : α}
    (h : (List.rdropWhile p l).getLast? = some c) : p c = false := by
  have hne : List.rdropWhile p l ≠ [] := by
    intro h0
    rw [h0] at h
    simp at h
  have h2 := List.rdropWhile_last_not (p := p) (l := l) hne
  rw [List.getLast?_eq_getLast _ hne, Option.some.injEq] at h
  rw [h] at h2
  simpa using h2

/-- The pipeline after the punctuation filter always produces canonical form. -/
theorem canon_aux (x : List Char) (hx : ∀ c ∈ x, wordChar c = true ∨ spaceChar c = true) :
    Canon (lowerChars (stripWS (collapseWS x))) := by
  have hmem_sl : ∀ c ∈ stripWS (collapseWS x), c ∈ collapseWS x := by
    intro c hc
    rw [stripWS] at hc
    exact (List.dropWhile_suffix spaceChar).subset
      ((List.rdropWhile_prefix spaceChar _).subset hc)
  have hmem_m : ∀ c ∈ collapseWS x, wordChar c = true ∨ c = ' ' := by
    intro c hc
    rcases collapseWS_mem hc with h | ⟨hmem, hns⟩
    · exact Or.inr h
    · rcases hx c hmem with h' | h'
      · exact Or.inl h'
      · simp [h'] at hns
  refine ⟨?_, ?_, ?_, ?_⟩
  · intro c hc
    rcases List.mem_map.mp hc with ⟨d, hd, rfl⟩
    rcases hmem_m d (hmem_sl d hd) with h | rfl
    · exact Or.inl ⟨wordChar_toLower h, toLower_idem d⟩
    · exact Or.inr rfl
  · have h0 : List.Chain' (fun a b => ¬(spaceChar a = true ∧ spaceChar b = true))
        (stripWS (collapseWS x)) := by
      rw [stripWS]
      exact List.Chain'.prefix
        ((collapseWS_chain' x).suffix (List.dropWhile_suffix spaceChar))
        (List.rdropWhile_prefix spaceChar _)
    rw [lowerChars, List.chain'_map]
    refine h0.imp fun a b hab => ?_
    rintro ⟨ha, hb⟩
    refine hab ⟨?_, ?_⟩
    · rw [eq_space_of_spaceChar_toLower ha]
      decide
    · rw [eq_space_of_spaceChar_toLower hb]
      decide
  · rw [lowerChars, List.head?_map]
    intro hcon
    rcases hh : (stripWS (collapseWS x)).head? with _ | d <;> rw [hh] at hcon
    · simp at hcon
    · simp only [Option.map_some', Option.some.injEq] at hcon
      have hd : d = ' ' := eq_space_of_spaceChar_toLower hcon
      subst hd
      rw [stripWS] at hh
      have h1 : ((collapseWS x).dropWhile spaceChar).head? = some ' ' :=
        head?_of_isPrefix (List.rdropWhile_prefix spaceChar _) hh
      exact absurd (head?_dropWhile_not h1) (by decide)
  · rw [lowerChars, List.getLast?_map]
    intro hcon
    rcases hh : (stripWS (collapseWS x)).getLast? with _ | d <;> rw [hh] at hcon
    · simp at hcon
    · simp only [Option.map_some', Option.some.injEq] at hcon
      have hd : d = ' ' := eq_space_of_spaceChar_toLower hcon
      subst hd
      rw [stripWS] at hh
      exact absurd (getLast?_rdropWhile_not hh) (by decide)

/-- The pipeline output is always in canonical form. -/
theorem canon_normalizeChars (l : List Char) : Canon (normalizeChars l) := by
  apply canon_aux
  intro c hc
  rcases List.mem_filter.mp hc with ⟨_, hf⟩
  exact Bool.or_eq_true _ _ |>.mp hf

/-- The pipeline fixes every canonical list. -/
theorem normalizeChars_fix {m : List Char} (h : Canon m) : normalizeChars m = m := by
  obtain ⟨hmem, hch, hhd, hlast⟩ := h
  have hword : ∀ c ∈ m, wordChar c = true ∨ c = ' ' := fun c hc =>
    (hmem c hc).imp And.left id
  have h1 : hyphenToSpace m = m := by
    apply map_fix
    intro c hc
    rw [if_neg]
    intro hcon
    rcases hword c hc with h' | h'
    · rw [wordChar_iff] at h'
      have : c.toNat = 45 := by rw [hcon]; rfl
      omega
    · rw [h'] at hcon
      exact absurd hcon (by decide)
  have h2 : keepWordSpace m = m := by
    apply List.filter_eq_self.mpr
    intro c hc
    rcases hword c hc with h' | h'
    · simp [h']
    · subst h'
      simp [spaceChar]
  have h3 : collapseWS m = m := by
    apply collapseWS_fix _ hch
    intro c hc hs
    rcases hword c hc with h' | h'
    · rw [wordChar_not_space h'] at hs
      simp at hs
    · exact h'
  have h4 : stripWS m = m := by
    rw [stripWS]
    have hd : m.dropWhile spaceChar = m := by
      cases m with
      | nil => rfl
      | cons a t =>
        have ha : spaceChar a = false := by
          rcases hword a (List.mem_cons_self _ _) with h' | h'
          · exact wordChar_not_space h'
          · exfalso
            apply hhd
            rw [List.head?_cons, h']
        rw [List.dropWhile_cons_of_neg (by simp [ha])]
    rw [hd]
    apply List.rdropWhile_eq_self_iff.mpr
    intro hne
    have hin := List.getLast_mem hne
    rcases hword _ hin with h' | h'
    · simp [wordChar_not_space h']
    · rw [List.getLast?_eq_getLast _ hne, h'] at hlast
      simp at hlast
  have h5 : lowerChars m = m := by
    apply map_fix
    intro c hc
    rcases hmem c hc with ⟨_, h'⟩ | h'
    · exact h'
    · rw [h']
      rfl
  rw [normalizeChars, h1, h2, h3, h4, h5]

/-- Idempotence on strings. -/
theorem normalize_idem (s : String) :
    normalize_ingredient_name (normalize_ingredient_name s) = normalize_ingredient_name s := by
  show (⟨normalizeChars (normalizeChars s.data)⟩ : String) = ⟨normalizeChars s.data⟩
  rw [normalizeChars_fix (canon_normalizeChars s.data)]

/-! ## 4.2 Nutrition-Text Parser (`parse_nutrition_value`)

Source (`Recipe.py`, lines 73-90):
```
match = re.search(r"(\d+(\.\d+)?)(g)?", nutrition_text)
if match: return match.group(1) + ("g" if match.group(3) else "")
else: return nutrition_text
```
`re.search` finds the leftmost match; since every sub-pattern after `\d+` is
optional, the greedy match at the first digit is the leftmost match. -/

/-- Python regex `\d` (ASCII). -/
def digitChar (c : Char) : Bool := decide (48 ≤ c.toNat ∧ c.toNat ≤ 57)

/-- The match of `(\d+(\.\d+)?)` at a position whose first character is a
digit: group 1, and the remaining input after the group (on which `(g)?` is
then tried). -/
def numMatch (l : List Char) : List Char × List Char :=
  let ds := l.takeWhile digitChar
  let rest := l.dropWhile digitChar
  match rest with
  | '.' :: r2 =>
    if r2.takeWhile digitChar ≠ [] then (ds ++ '.' :: r2.takeWhile digitChar, r2.dropWhile digitChar)
    else (ds, rest)
  | _ => (ds, rest)

/-- `re.search` for `(\d+(\.\d+)?)(g)?`: try every start position from the
left; the pattern can only start matching at a digit. -/
def firstNumMatch : List Char → Option (List Char × List Char)
  | [] => none
  | c :: rest => if digitChar c then some (numMatch (c :: rest)) else firstNumMatch rest

/-- `parse_nutrition_value` from `Recipe.py`. -/
def parse_nutrition_value (s : String) : String :=
  match firstNumMatch s.data with
  | some (num, rest) =>
    match rest with
    | 'g' :: _ => ⟨num ++ ['g']⟩
    | _ => ⟨num⟩
  | none => s

theorem firstNumMatch_eq_none {l : List Char} (h : ∀ c ∈ l, digitChar c = false) :
    firstNumMatch l = none := by
  induction l with
  | nil => rfl
  | cons a t ih =>
    rw [firstNumMatch, if_neg (by simp [h a (List.mem_cons_self a t)]), ih]
    intro c hc
    exact h c (List.mem_cons_of_mem a hc)

/-! ## 4.3 Summary Nutrition Extractor (`extract_nutrition_facts`)

Source (`Recipe.py`, lines 92-107):
```
nutrition = {}
bold_texts = re.findall(r"<b>(.*?)</b>", summary)
for text in bold_texts:
    lower_text = text.lower()
    if "calories" in lower_text:   nutrition["Calories"] = parse_nutrition_value(text)
    elif "protein" in lower_text:  nutrition["Protein"] = parse_nutrition_value(text)
    elif "fat" in lower_text:      nutrition["Fat"] = parse_nutrition_value(text)
return nutrition
```
-/

/-- The lazy `(.*?)</b>` match attempt: characters up to the first `</b>`,
plus the remainder after it.  `none` if no `</b>` follows. -/
def grabBold : List Char → Option (List Char × List Char)
  | '<' :: '/' :: 'b' :: '>' :: rest => some ([], rest)
  | c :: rest => (grabBold rest).map fun p => (c :: p.1, p.2)
  | [] => none

/-- `re.findall(r"<b>(.*?)</b>", ·)`: all captured groups in document order.
`.` does not match a newline, so a candidate start whose lazy content would
cross a newline fails and the scan resumes after that `<b>`.  Fuel-based so
that the kernel can evaluate it; the fuel `l.length` is always sufficient
because every recursive call consumes at least one character. -/
def findBoldAux (fuel : Nat) (l : List Char) : List (List Char) :=
  match fuel with
  | 0 => []
  | fuel + 1 =>
    match l with
    | '<' :: 'b' :: '>' :: rest =>
      match grabBold rest with
      | some (content, rest2) =>
        if content.contains '\n' then findBoldAux fuel rest
        else content :: findBoldAux fuel rest2
      | none => []
    | _ :: rest => findBoldAux fuel rest
    | [] => []

def findBold (l : List Char) : List (List Char) := findBoldAux l.length l

/-- The Python `in` operator on strings: contiguous substring occurrence. -/
def containsSeq (needle : List Char) : List Char → Bool
  | [] => needle.isEmpty
  | c :: rest => needle.isPrefixOf (c :: rest) || containsSeq needle rest

def strContains (hay needle : String) : Bool := containsSeq needle.data hay.data

/-- `text.lower()` on a whole string (ASCII model). -/
def lowerStr (s : String) : String := ⟨lowerChars s.data⟩

/-- The `{Calories, Protein, Fat}` mapping (each key present or absent). -/
structure NutritionFacts where
  calories : Option String
  protein : Option String
  fat : Option String
deriving DecidableEq

/-- One iteration of the extractor's `for` loop: the `if`/`elif` routing of a
single bold span. -/
def routeSpan (n : NutritionFacts) (text : String) : NutritionFacts :=
  let lower_text := lowerStr text
  if strContains lower_text "calories" then
    { n with calories := some (parse_nutrition_value text) }
  else if strContains lower_text "protein" then
    { n with protein := some (parse_nutrition_value text) }
  else if strContains lower_text "fat" then
    { n with fat := some (parse_nutrition_value text) }
  else n

/-- `extract_nutrition_facts` from `Recipe.py`. -/
def extract_nutrition_facts (summary : String) : NutritionFacts :=
  ((findBold summary.data).map fun cs => (⟨cs⟩ : String)).foldl routeSpan ⟨none, none, none⟩

/-- The branch condition that stores a span under `Calories`. -/
def matchesCalories (text : String) : Bool := strContains (lowerStr text) "calories"

/-- The branch condition that stores a span under `Protein`. -/
def matchesProtein (text : String) : Bool :=
  !matchesCalories text && strContains (lowerStr text) "protein"

/-- The branch condition that stores a span under `Fat`. -/
def matchesFat (text : String) : Bool :=
  !matchesCalories text && !strContains (lowerStr text) "protein" &&
    strContains (lowerStr text) "fat"

/-- Modelled from the spec claim under test (C1), NOT from the source: the
claimed first-match-wins value of the `Calories` key. -/
def specFirstWinsCalories (summary : String) : Option String :=
  (((findBold summary.data).map fun cs => (⟨cs⟩ : String)).find? matchesCalories).map
    parse_nutrition_value

theorem routeSpan_calories (n : NutritionFacts) (t : String) :
    (routeSpan n t).calories =
      if matchesCalories t then some (parse_nutrition_value t) else n.calories := by
  rw [routeSpan, matchesCalories]
  by_cases h1 : strContains (lowerStr t) "calories" <;>
    by_cases h2 : strContains (lowerStr t) "protein" <;>
    by_cases h3 : strContains (lowerStr t) "fat" <;>
    simp [h1, h2, h3]

theorem routeSpan_protein (n : NutritionFacts) (t : String) :
    (routeSpan n t).protein =
      if matchesProtein t then some (parse_nutrition_value t) else n.protein := by
  rw [routeSpan, matchesProtein, matchesCalories]
  by_cases h1 : strContains (lowerStr t) "calories" <;>
    by_cases h2 : strContains (lowerStr t) "protein" <;>
    by_cases h3 : strContains (lowerStr t) "fat" <;>
    simp [h1, h2, h3]

theorem routeSpan_fat (n : NutritionFacts) (t : String) :
    (routeSpan n t).fat =
      if matchesFat t then some (parse_nutrition_value t) else n.fat := by
  rw [routeSpan, matchesFat, matchesCalories]
  by_cases h1 : strContains (lowerStr t) "calories" <;>
    by_cases h2 : strContains (lowerStr t) "protein" <;>
    by_cases h3 : strContains (lowerStr t) "fat" <;>
    simp [h1, h2, h3]

/-- Folding the routing loop: the `Calories` key holds the parse of the LAST
span matching the calories branch (dict assignment overwrites). -/
theorem foldl_route_calories (spans : List String) (n : NutritionFacts) :
    (spans.foldl routeSpan n).calories =
      match (spans.filter matchesCalories).getLast? with
      | some t => some (parse_nutrition_value t)
      | none => n.calories := by
  induction spans generalizing n with
  | nil => rfl
  | cons t ts ih =>
    rw [List.foldl_cons, ih]
    by_cases hm : matchesCalories t
    · rw [List.filter_cons_of_pos hm]
      rcases hl : (ts.filter matchesCalories).getLast? with _ | u
      · rw [List.getLast?_cons, hl]
        simp only [Option.getD_none]
        rw [routeSpan_calories, if_pos hm]
      · rw [List.getLast?_cons, hl]
        simp only [Option.getD_some]
    · rw [List.filter_cons_of_neg hm]
      rcases hl : (ts.filter matchesCalories).getLast? with _ | u
      · rw [routeSpan_calories, if_neg (by simp [hm])]
      · rfl

theorem foldl_route_protein (spans : List String) (n : NutritionFacts) :
    (spans.foldl routeSpan n).protein =
      match (spans.filter matchesProtein).getLast? with
      | some t => some (parse_nutrition_value t)
      | none => n.protein := by
  induction spans generalizing n with
  | nil => rfl
  | cons t ts ih =>
    rw [List.foldl_cons, ih]
    by_cases hm : matchesProtein t
    · rw [List.filter_cons_of_pos hm]
      rcases hl : (ts.filter matchesProtein).getLast? with _ | u
      · rw [List.getLast?_cons, hl]
        simp only [Option.getD_none]
        rw [routeSpan_protein, if_pos hm]
      · rw [List.getLast?_cons, hl]
        simp only [Option.getD_some]
    · rw [List.filter_cons_of_neg hm]
      rcases hl : (ts.filter matchesProtein).getLast? with _ | u
      · rw [routeSpan_protein, if_neg (by simp [hm])]
      · rfl

theorem foldl_route_fat (spans : List String) (n : NutritionFacts) :
    (spans.foldl routeSpan n).fat =
      match (spans.filter matchesFat).getLast? with
      | some t => some (parse_nutrition_value t)
      | none => n.fat := by
  induction spans generalizing n with
  | nil => rfl
  | cons t ts ih =>
    rw [List.foldl_cons, ih]
    by_cases hm : matchesFat t
    · rw [List.filter_cons_of_pos hm]
      rcases hl : (ts.filter matchesFat).getLast? with _ | u
      · rw [List.getLast?_cons, hl]
        simp only [Option.getD_none]
        rw [routeSpan_fat, if_pos hm]
      · rw [List.getLast?_cons, hl]
        simp only [Option.getD_some]
    · rw [List.filter_cons_of_neg hm]
      rcases hl : (ts.filter matchesFat).getLast? with _ | u
      · rw [routeSpan_fat, if_neg (by simp [hm])]
      · rfl

/-! ## Data model: Recipe record (§3)

The fields of the externally-sourced recipe object that the extraction
functions read.  Optional fields (`servings`) are `Option`; `.get(key, d)`
becomes `Option.getD`. -/

structure Equipment where
  name : String
deriving DecidableEq

structure StepIngredientRef where
  name : String
deriving DecidableEq

structure InstructionStep where
  number : Nat
  step : String
  equipment : List Equipment
  ingredients : List StepIngredientRef
deriving DecidableEq

structure InstructionGroup where
  steps : List InstructionStep
deriving DecidableEq

structure ExtendedIngredient where
  name : String
  original : String
deriving DecidableEq

structure RecipeData where
  analyzedInstructions : List InstructionGroup
  extendedIngredients : List ExtendedIngredient
  servings : Option Nat
  summary : String
deriving DecidableEq

/-! ## 4.4 Equipment Collector (`extract_unique_equipment`)

Source (`Recipe.py`, lines 109-115): union of `equip["name"]` over every step
of every instruction group into a set, returned as `sorted(...)`.  The model
returns the sorted deduplicated name list, which is the same sequence
`sorted` produces from the set. -/

def allEquipmentNames (r : RecipeData) : List String :=
  r.analyzedInstructions.flatMap fun instr =>
    instr.steps.flatMap fun s => s.equipment.map Equipment.name

/-- Lexicographic (code-point) comparison of character lists: Python's string
ordering as used by `sorted`. -/
def charListLe : List Char → List Char → Bool
  | [], _ => true
  | _ :: _, [] => false
  | a :: as, b :: bs => if a = b then charListLe as bs else decide (a.toNat < b.toNat)

/-- Python's `s1 <= s2` on strings. -/
def strLeP (a b : String) : Prop := charListLe a.data b.data = true

instance : DecidableRel strLeP := fun a b =>
  inferInstanceAs (Decidable (charListLe a.data b.data = true))

/-- `extract_unique_equipment` from `Recipe.py`: `sorted(equipment_set)`,
modelled as sorting the deduplicated name list. -/
def extract_unique_equipment (r : RecipeData) : List String :=
  List.insertionSort strLeP (allEquipmentNames r).dedup

theorem charListLe_total : ∀ a b : List Char, charListLe a b = true ∨ charListLe b a = true := by
  intro a
  induction a with
  | nil => intro b; exact Or.inl rfl
  | cons x as ih =>
    intro b
    cases b with
    | nil => exact Or.inr rfl
    | cons y bs =>
      by_cases hxy : x = y
      · subst hxy
        rw [charListLe, if_pos rfl, charListLe, if_pos rfl]
        exact ih bs
      · have hne : x.toNat ≠ y.toNat := fun h => hxy (charToNat_inj h)
        rw [charListLe, if_neg hxy, charListLe, if_neg (fun h => hxy h.symm)]
        rcases Nat.lt_or_ge x.toNat y.toNat with h | h
        · exact Or.inl (by simpa using h)
        · exact Or.inr (by simp; omega)

theorem charListLe_trans : ∀ a b c : List Char,
    charListLe a b = true → charListLe b c = true → charListLe a c = true := by
  intro a
  induction a with
  | nil => intro b c _ _; rfl
  | cons x as ih =>
    intro b c hab hbc
    cases b with
    | nil => simp [charListLe] at hab
    | cons y bs =>
      cases c with
      | nil => simp [charListLe] at hbc
      | cons z cs =>
        by_cases hxy : x = y <;> by_cases hyz : y = z
        · subst hxy; subst hyz
          rw [charListLe, if_pos rfl] at hab hbc ⊢
          exact ih bs cs hab hbc
        · subst hxy
          rw [charListLe, if_neg hyz] at hbc ⊢
          exact hbc
        · subst hyz
          rw [charListLe, if_neg hxy] at hab ⊢
          exact hab
        · rw [charListLe, if_neg hxy] at hab
          rw [charListLe, if_neg hyz] at hbc
          have hxz : x.toNat < z.toNat := by
            have h1 : x.toNat < y.toNat := by simpa using hab
            have h2 : y.toNat < z.toNat := by simpa using hbc
            omega
          have hne : x ≠ z := fun h => by
            rw [h] at hxz
            omega
          rw [charListLe, if_neg hne]
          simpa using hxz

instance : IsTotal String strLeP := ⟨fun a b => charListLe_total a.data b.data⟩

instance : IsTrans String strLeP := ⟨fun a b c => charListLe_trans a.data b.data c.data⟩

/-! ## 4.5 Ingredient Original-Text Index (`build_ingredient_original_map`)

Source (`Recipe.py`, lines 117-128): a Python `dict` built by
`original_map[normalize_ingredient_name(ing["name"])] = ing["original"]`
over the ingredients in order.  A `dict` is modelled as an association list
with unique keys: assignment updates in place or appends. -/

/-- Python `dict` assignment `m[k] = v`. -/
def dictInsert : List (String × String) → String → String → List (String × String)
  | [], k, v => [(k, v)]
  | (k0, v0) :: rest, k, v =>
    if k0 = k then (k0, v) :: rest else (k0, v0) :: dictInsert rest k v

/-- Python `m.get(k)` / `m[k]` lookup. -/
def dictGet? (m : List (String × String)) (k : String) : Option String :=
  (m.find? fun p => p.1 = k).map Prod.snd

/-- `build_ingredient_original_map` from `Recipe.py`. -/
def build_ingredient_original_map (extended_ingredients : List ExtendedIngredient) :
    List (String × String) :=
  extended_ingredients.foldl
    (fun m ing => dictInsert m (normalize_ingredient_name ing.name) ing.original) []

theorem dictGet?_cons_eq {k0 k2 : String} (v0 : String) (l : List (String × String))
    (h : k0 = k2) : dictGet? ((k0, v0) :: l) k2 = some v0 := by
  rw [dictGet?, List.find?_cons_of_pos _ (by simp [h])]
  rfl

theorem dictGet?_cons_ne {k0 k2 : String} (v0 : String) (l : List (String × String))
    (h : ¬k0 = k2) : dictGet? ((k0, v0) :: l) k2 = dictGet? l k2 := by
  rw [dictGet?, List.find?_cons_of_neg _ (by simp [h])]
  rfl

theorem dictGet?_dictInsert (m : List (String × String)) (k v k2 : String) :
    dictGet? (dictInsert m k v) k2 = if k = k2 then some v else dictGet? m k2 := by
  induction m with
  | nil =>
    by_cases h : k = k2
    · rw [dictInsert, dictGet?_cons_eq v [] h, if_pos h]
    · rw [dictInsert, dictGet?_cons_ne v [] h, if_neg h]
  | cons p rest ih =>
    obtain ⟨k0, v0⟩ := p
    by_cases h0 : k0 = k
    · subst h0
      rw [dictInsert, if_pos rfl]
      by_cases h : k0 = k2
      · rw [dictGet?_cons_eq v rest h, if_pos h]
      · rw [dictGet?_cons_ne v rest h, if_neg h, dictGet?_cons_ne v0 rest h]
    · rw [dictInsert, if_neg h0]
      by_cases h : k0 = k2
      · have hk : ¬k = k2 := fun hc => h0 (h.trans hc.symm)
        rw [dictGet?_cons_eq v0 _ h, if_neg hk, dictGet?_cons_eq v0 rest h]
      · rw [dictGet?_cons_ne v0 _ h, ih]
        by_cases hk : k = k2
        · rw [if_pos hk, if_pos hk]
        · rw [if_neg hk, if_neg hk, dictGet?_cons_ne v0 rest h]

/-- Building the index over `ings` and looking up `k` returns the `original`
of the LAST ingredient whose normalized name is `k` (last-write-wins). -/
theorem build_map_last_wins (ings : List ExtendedIngredient) (k : String) :
    dictGet? (build_ingredient_original_map ings) k =
      (ings.reverse.find? fun ing => normalize_ingredient_name ing.name = k).map
        ExtendedIngredient.original := by
  suffices h : ∀ (m : List (String × String)),
      dictGet? (ings.foldl
        (fun m ing => dictInsert m (normalize_ingredient_name ing.name) ing.original) m) k =
      match ings.reverse.find? fun ing => normalize_ingredient_name ing.name = k with
      | some ing => some ing.original
      | none => dictGet? m k by
    rw [build_ingredient_original_map, h []]
    rcases hf : ings.reverse.find? fun ing => normalize_ingredient_name ing.name = k with _ | ing
    · rw [hf]
      rfl
    · rw [hf]
      rfl
  induction ings with
  | nil => intro m; rfl
  | cons ing rest ih =>
    intro m
    rw [List.foldl_cons, ih, List.reverse_cons, List.find?_append]
    rcases hf : rest.reverse.find? fun i => normalize_ingredient_name i.name = k with _ | u
    · rw [hf]
      simp only [Option.none_or]
      by_cases hk : normalize_ingredient_name ing.name = k
      · simp [dictGet?_dictInsert, hk]
      · simp [dictGet?_dictInsert, hk]
    · rw [hf]
      simp

/-! ## 4.6 LLM Response Sanitizer

Source (`Recipe.py`, lines 211-219 and 278-286):
```
raw_result = response...strip()
raw_result = re.sub(r"^```[a-zA-Z]*\n?", "", raw_result)
raw_result = re.sub(r"```$", "", raw_result).strip()
data = json.loads(raw_result)   # on exception: report error, return None
```
`json.loads` is modelled by a JSON parser following CPython's `json` scanner:
the number grammar is the scanner's regex `(-?(?:0|[1-9]\d*))(\.\d+)?([eE][-+]?\d+)?`,
the constants `NaN`/`Infinity`/`-Infinity` are accepted, strings take the
standard escapes (`\uXXXX` limited to non-surrogate code points), and
trailing non-whitespace input is an error ("Extra data").  The parser is
total (fuel-based), so a malformed input yields `none`, never a fault. -/

/-- JSON values as returned by `json.loads`. -/
inductive JsonVal where
  | jnull
  | jbool (b : Bool)
  | jnum (q : ℚ)
  | jnan
  | jinf (neg : Bool)
  | jstr (s : String)
  | jarr (elems : List JsonVal)
  | jobj (members : List (String × JsonVal))

/-- JSON whitespace (the `_w` regex class of the `json` module). -/
def jWs (c : Char) : Bool := decide (c = ' ' ∨ c = '\t' ∨ c = '\n' ∨ c = '\r')

/-- Hex digit value. -/
def hexVal (c : Char) : Option Nat :=
  if 48 ≤ c.toNat ∧ c.toNat ≤ 57 then some (c.toNat - 48)
  else if 65 ≤ c.toNat ∧ c.toNat ≤ 70 then some (c.toNat - 55)
  else if 97 ≤ c.toNat ∧ c.toNat ≤ 102 then some (c.toNat - 87)
  else none

/-- JSON string body after the opening quote: returns the decoded characters
and the input after the closing quote.  Unescaped control characters are
rejected (strict mode), `\uXXXX` outside the surrogate range becomes the
corresponding character. -/
def parseJString : List Char → Option (List Char × List Char)
  | [] => none
  | '"' :: rest => some ([], rest)
  | '\\' :: esc =>
    match esc with
    | '"' :: r => (parseJString r).map fun p => ('"' :: p.1, p.2)
    | '\\' :: r => (parseJString r).map fun p => ('\\' :: p.1, p.2)
    | '/' :: r => (parseJString r).map fun p => ('/' :: p.1, p.2)
    | 'b' :: r => (parseJString r).map fun p => ('\x08' :: p.1, p.2)
    | 'f' :: r => (parseJString r).map fun p => ('\x0c' :: p.1, p.2)
    | 'n' :: r => (parseJString r).map fun p => ('\n' :: p.1, p.2)
    | 'r' :: r => (parseJString r).map fun p => ('\r' :: p.1, p.2)
    | 't' :: r => (parseJString r).map fun p => ('\t' :: p.1, p.2)
    | 'u' :: h1 :: h2 :: h3 :: h4 :: r =>
      match hexVal h1, hexVal h2, hexVal h3, hexVal h4 with
      | some a, some b, some c, some d =>
        let n := ((a * 16 + b) * 16 + c) * 16 + d
        if n.isValidChar then (parseJString r).map fun p => (Char.ofNat n :: p.1, p.2)
        else none
      | _, _, _, _ => none
    | _ => none
  | c :: rest =>
    if c.toNat < 32 then none
    else (parseJString rest).map fun p => (c :: p.1, p.2)

def natOfDigits (ds : List Char) : Nat :=
  ds.foldl (fun acc c => acc * 10 + (c.toNat - 48)) 0

/-- The scanner's number regex `(-?(?:0|[1-9]\d*))(\.\d+)?([eE][-+]?\d+)?`,
converted to an exact rational. -/
def parseJNumber (l : List Char) : Option (ℚ × List Char) :=
  let (neg, l1) : Bool × List Char := match l with
    | '-' :: r => (true, r)
    | _ => (false, l)
  let (ids, l2) : List Char × List Char := match l1 with
    | '0' :: r => (['0'], r)
    | _ => (l1.takeWhile digitChar, l1.dropWhile digitChar)
  if ids = [] then none
  else
    let (fs, l3) : List Char × List Char := match l2 with
      | '.' :: r =>
        if r.takeWhile digitChar = [] then ([], l2)
        else (r.takeWhile digitChar, r.dropWhile digitChar)
      | _ => ([], l2)
    let (ex, l4) : Option Int × List Char := match l3 with
      | e :: '+' :: r =>
        if (e = 'e' || e = 'E') && r.takeWhile digitChar ≠ [] then
          (some (natOfDigits (r.takeWhile digitChar) : Int), r.dropWhile digitChar)
        else (none, l3)
      | e :: '-' :: r =>
        if (e = 'e' || e = 'E') && r.takeWhile digitChar ≠ [] then
          (some (-(natOfDigits (r.takeWhile digitChar) : Int)), r.dropWhile digitChar)
        else (none, l3)
      | e :: r =>
        if (e = 'e' || e = 'E') && r.takeWhile digitChar ≠ [] then
          (some (natOfDigits (r.takeWhile digitChar) : Int), r.dropWhile digitChar)
        else (none, l3)
      | _ => (none, l3)
    let mantissa : ℤ := (natOfDigits (ids ++ fs) : ℤ)
    let signedMant : ℤ := if neg then -mantissa else mantissa
    let t : ℤ := (match ex with | some e => e | none => 0) - (fs.length : ℤ)
    let q : ℚ :=
      if 0 ≤ t then mkRat (signedMant * (10 ^ t.toNat : ℕ)) 1
      else mkRat signedMant (10 ^ (-t).toNat)
    some (q, l4)

mutual

/-- One JSON value (leading whitespace allowed), returning the remainder. -/
def parseJValue : Nat → List Char → Option (JsonVal × List Char)
  | 0, _ => none
  | fuel + 1, l =>
    match l.dropWhile jWs with
    | 'n' :: 'u' :: 'l' :: 'l' :: rest => some (.jnull, rest)
    | 't' :: 'r' :: 'u' :: 'e' :: rest => some (.jbool true, rest)
    | 'f' :: 'a' :: 'l' :: 's' :: 'e' :: rest => some (.jbool false, rest)
    | 'N' :: 'a' :: 'N' :: rest => some (.jnan, rest)
    | 'I' :: 'n' :: 'f' :: 'i' :: 'n' :: 'i' :: 't' :: 'y' :: rest => some (.jinf false, rest)
    | '-' :: 'I' :: 'n' :: 'f' :: 'i' :: 'n' :: 'i' :: 't' :: 'y' :: rest => some (.jinf true, rest)
    | '"' :: rest => (parseJString rest).map fun p => (.jstr ⟨p.1⟩, p.2)
    | '[' :: rest =>
      match rest.dropWhile jWs with
      | ']' :: r => some (.jarr [], r)
      | _ => (parseJElems fuel rest).map fun p => (.jarr p.1, p.2)
    | '{' :: rest =>
      match rest.dropWhile jWs with
      | '}' :: r => some (.jobj [], r)
      | _ => (parseJMembers fuel rest).map fun p => (.jobj p.1, p.2)
    | other => (parseJNumber other).map fun p => (.jnum p.1, p.2)

/-- Non-empty array elements: `value (ws ',' value)* ws ']'`. -/
def parseJElems : Nat → List Char → Option (List JsonVal × List Char)
  | 0, _ => none
  | fuel + 1, l =>
    match parseJValue fuel l with
    | some (v, r) =>
      match r.dropWhile jWs with
      | ',' :: r2 => (parseJElems fuel r2).map fun p => (v :: p.1, p.2)
      | ']' :: r2 => some ([v], r2)
      | _ => none
    | none => none

/-- Non-empty object members: `ws key ws ':' value (ws ',' members | ws '}')`. -/
def parseJMembers : Nat → List Char → Option (List (String × JsonVal) × List Char)
  | 0, _ => none
  | fuel + 1, l =>
    match l.dropWhile jWs with
    | '"' :: r =>
      match parseJString r with
      | some (key, r1) =>
        match r1.dropWhile jWs with
        | ':' :: r2 =>
          match parseJValue fuel r2 with
          | some (v, r3) =>
            match r3.dropWhile jWs with
            | ',' :: r4 => (parseJMembers fuel r4).map fun p => ((⟨key⟩, v) :: p.1, p.2)
            | '}' :: r4 => some ([(⟨key⟩, v)], r4)
            | _ => none
          | none => none
        | _ => none
      | none => none
    | _ => none

end

/-- `json.loads`: one value, then only whitespace may remain ("Extra data"
otherwise).  The fuel `2 * length + 2` is always sufficient: every two fuel
steps consume at least one input character. -/
def json_loads (s : String) : Option JsonVal :=
  match parseJValue (2 * s.data.length + 2) s.data with
  | some (v, rest) => if rest.dropWhile jWs = [] then some v else none
  | none => none

/-- ASCII letter (the `[a-zA-Z]` of the fence regex). -/
def asciiLetter (c : Char) : Bool :=
  decide ((65 ≤ c.toNat ∧ c.toNat ≤ 90) ∨ (97 ≤ c.toNat ∧ c.toNat ≤ 122))

/-- `str.strip()` (ASCII whitespace model). -/
def pyStrip (l : List Char) : List Char := (l.dropWhile spaceChar).rdropWhile spaceChar

/-- `re.sub(r"^```[a-zA-Z]*\n?", "", ·)`: remove one leading fence marker with
optional language tag and optional newline. -/
def stripLeadFence : List Char → List Char
  | '`' :: '`' :: '`' :: rest =>
    match rest.dropWhile asciiLetter with
    | '\n' :: r2 => r2
    | r1 => r1
  | l => l

/-- `re.sub(r"```$", "", ·)`: remove one trailing fence marker; `$` also
matches just before a final newline. -/
def stripTrailFence (l : List Char) : List Char :=
  match l.reverse with
  | '`' :: '`' :: '`' :: r => r.reverse
  | '\n' :: '`' :: '`' :: '`' :: r => r.reverse ++ ['\n']
  | _ => l

/-- The sanitizer of `infer_step_ingredient_amounts` (and of `main`'s cost
path): strip, remove fences, strip, parse; `none` models the `except` branch
that reports the error and returns `None`. -/
def sanitize_llm_json (raw : String) : Option JsonVal :=
  json_loads ⟨pyStrip (stripTrailFence (stripLeadFence (pyStrip raw.data)))⟩

/-! ## 4.7 Cost/Nutrition Estimator (`calculate_nutrition_and_cost`)

Source (`Recipe.py`, lines 130-157).  The user prompt is an f-string whose
only format slot is `{ingredients_text}`; the `servings` parameter of the
function appears in no slot, although the prose of the template says
"assuming the recipe yields the provided number of servings".  In `main`
(line 269) the servings value is `recipe.get("servings", 1)`. -/

/-- The user prompt of `calculate_nutrition_and_cost`, with the function's
two parameters.  (`\x27` is the ASCII apostrophe appearing in the source.) -/
def calculate_nutrition_and_cost_prompt (ingredients_text : String) (servings : Nat) : String :=
  "Given the following ingredients with their quantities: " ++ ingredients_text ++
  ", calculate the total nutrition facts (calories, protein in grams, fat in grams), " ++
  "the total cost (in USD) for the entire recipe, and the price per serving (in USD) " ++
  "assuming the recipe yields the provided number of servings. " ++
  "Return ONLY a valid JSON object with exactly the keys \x27calories\x27, \x27protein\x27, \x27fat\x27, " ++
  "\x27total_cost\x27, and \x27price_per_serving\x27 with no additional text or formatting."

/-- `"; ".join(ingredients_list)` over the `original` fields (`main`,
lines 267-268). -/
def ingredientsTextOf (r : RecipeData) : String :=
  String.intercalate "; " (r.extendedIngredients.map ExtendedIngredient.original)

/-- `recipe.get("servings", 1)` (`main`, line 269). -/
def mainServings (r : RecipeData) : Nat := r.servings.getD 1

/-! ## Cost formatting (`main`, lines 284-291)

`f"${float(x):.2f}"`: Python formats the double to two decimals with round
half to even (on the exact binary value; the model is exact for dyadic
inputs such as `12.5` and `3.125`). -/

/-- `q * 100` rounded to the nearest integer, ties to even (the rounding of
`:.2f`), computed from the exact numerator/denominator: with `n = num * 100`
and `d = den`, the floor is `n / d` (euclidean division, `d > 0`) and the
fractional part `r / d` is compared against `1 / 2` via `2 * r` vs `d`. -/
def roundCentsHalfEven (q : ℚ) : ℤ :=
  let n := q.num * 100
  let d : ℤ := (q.den : ℤ)
  let f := Int.ediv n d
  let r := n - f * d
  if 2 * r < d then f
  else if 2 * r > d then f + 1
  else if Int.emod f 2 = 0 then f else f + 1

/-- `f"${x:.2f}"`. -/
def fmtUSD (q : ℚ) : String :=
  let cents := roundCentsHalfEven q
  let sign := if cents < 0 then "-" else ""
  let n := cents.natAbs
  "$" ++ sign ++ toString (n / 100) ++ "." ++
    (if n % 100 < 10 then "0" else "") ++ toString (n % 100)

/-- Modelled from the spec claim under test (C3), NOT from the source:
standard half-up rounding of `q * 100` to the nearest integer,
`⌊q * 100 + 1 / 2⌋ = (200 * num + den) euclidean-div (2 * den)`. -/
def specRoundHalfUpCents (q : ℚ) : ℤ :=
  Int.ediv (200 * q.num + (q.den : ℤ)) (2 * (q.den : ℤ))

/-! ## Step display decision (`main`, lines 363-380)

```
if step_amounts_map and str(step_num) in step_amounts_map:
    usage_dict = step_amounts_map[str(step_num)]
    if usage_dict: ... show GPT-inferred amounts ...
else:
    if step.get("ingredients"): ... show Spoonacular ingredient names ...
```
-/

inductive StepIngredientDisplay where
  | gptAmounts (pairs : List (String × String))
  | fallback (names : List String)
  | nothing
deriving DecidableEq

/-- The `else` branch: recipe-provided step ingredient names, if any. -/
def stepFallback (step_ingredients : List StepIngredientRef) : StepIngredientDisplay :=
  if step_ingredients = [] then .nothing
  else .fallback (step_ingredients.map StepIngredientRef.name)

/-- What the step loop displays as ingredient information for one step.
`none`/`some []` are the falsy values of `step_amounts_map`. -/
def stepDisplay (step_amounts_map : Option (List (String × List (String × String))))
    (step_num : Nat) (step_ingredients : List StepIngredientRef) : StepIngredientDisplay :=
  match step_amounts_map with
  | some m =>
    if m = [] then stepFallback step_ingredients
    else
      match m.find? fun p => p.1 = toString step_num with
      | some pr => if pr.2 = [] then .nothing else .gptAmounts pr.2
      | none => stepFallback step_ingredients
  | none => stepFallback step_ingredients

/-! # Claim theorems -/

/-- C1 (counterexample): the claim says the FIRST bold span matching a
category wins and later matching spans are ignored; but on the summary
`"<b>100 calories</b> and <b>200 calories</b>"` the extractor stores the
parse of the LATER span (`"200"`), not the first-match value (`"100"`). -/
theorem C1_counterexample :
    (extract_nutrition_facts "<b>100 calories</b> and <b>200 calories</b>").calories =
      some "200" ∧
    specFirstWinsCalories "<b>100 calories</b> and <b>200 calories</b>" = some "100" ∧
    (some "200" : Option String) ≠ some "100" :=
  ⟨by decide, by decide, by decide⟩

/-- C1 (amended): the extractor processes bold spans in document order and,
per category, the LAST matching span wins — a later bold span matching an
already-filled category overwrites the stored value, so each stored value is
the parse of the latest bold span satisfying that category's branch
condition. -/
theorem C1_last_match_wins (summary : String) :
    (extract_nutrition_facts summary).calories =
      ((((findBold summary.data).map fun cs => (⟨cs⟩ : String)).filter
        matchesCalories).getLast?).map parse_nutrition_value ∧
    (extract_nutrition_facts summary).protein =
      ((((findBold summary.data).map fun cs => (⟨cs⟩ : String)).filter
        matchesProtein).getLast?).map parse_nutrition_value ∧
    (extract_nutrition_facts summary).fat =
      ((((findBold summary.data).map fun cs => (⟨cs⟩ : String)).filter
        matchesFat).getLast?).map parse_nutrition_value := by
  refine ⟨?_, ?_, ?_⟩ <;> rw [extract_nutrition_facts]
  · rw [foldl_route_calories]
    rcases h : (((findBold summary.data).map fun cs => (⟨cs⟩ : String)).filter
      matchesCalories).getLast? with _ | t <;> rfl
  · rw [foldl_route_protein]
    rcases h : (((findBold summary.data).map fun cs => (⟨cs⟩ : String)).filter
      matchesProtein).getLast? with _ | t <;> rfl
  · rw [foldl_route_fat]
    rcases h : (((findBold summary.data).map fun cs => (⟨cs⟩ : String)).filter
      matchesFat).getLast? with _ | t <;> rfl

/-- C2: the user prompt of the cost estimator does NOT depend on its
`servings` parameter — only the ingredients text is interpolated.  For a
recipe with `servings` absent, `main` does substitute the default `1`
(and nothing fails), but that value never appears in the prompt: the prompt
built with servings 1 equals the prompt built with servings 42, and the
character `1` does not occur in it at all. -/
theorem C2_prompt_ignores_servings :
    (∀ (ingredients_text : String) (s1 s2 : Nat),
      calculate_nutrition_and_cost_prompt ingredients_text s1 =
        calculate_nutrition_and_cost_prompt ingredients_text s2) ∧
    mainServings ⟨[], [⟨"egg", "2 large eggs"⟩], none, ""⟩ = 1 ∧
    ingredientsTextOf ⟨[], [⟨"egg", "2 large eggs"⟩], none, ""⟩ = "2 large eggs" ∧
    strContains (calculate_nutrition_and_cost_prompt "2 large eggs" 1) "1" = false :=
  ⟨fun _ _ _ => rfl, rfl, by decide, by set_option maxRecDepth 4000 in decide⟩

/-- C3 (counterexample): the claim says `price_per_serving: 3.125` formats
with standard half-up rounding to `"$3.13"`; the code's `f"${x:.2f}"` rounds
half to even and prints `"$3.12"` (half-up of 312.5 cents would be 313). -/
theorem C3_counterexample :
    json_loads "3.125" = some (.jnum (mkRat 25 8)) ∧
    fmtUSD (mkRat 25 8) = "$3.12" ∧
    specRoundHalfUpCents (mkRat 25 8) = 313 ∧
    ("$3.12" : String) ≠ "$3.13" :=
  ⟨rfl, by decide, by decide, by decide⟩

/-- C3 (amended): `total_cost` and `price_per_serving` are formatted as `"$"`
followed by the value rounded to 2 decimal places with round-half-to-even
(Python float formatting): `12.5` formats to `"$12.50"` and `3.125` to
`"$3.12"`. -/
theorem C3_format_half_even :
    json_loads "12.5" = some (.jnum (mkRat 25 2)) ∧
    fmtUSD (mkRat 25 2) = "$12.50" ∧
    json_loads "3.125" = some (.jnum (mkRat 25 8)) ∧
    fmtUSD (mkRat 25 8) = "$3.12" :=
  ⟨rfl, by decide, rfl, by decide⟩

/-- C4: the ingredient index maps each normalized name to the `original` of
the LAST ingredient with that normalized name (last-write-wins); in
particular, of two ingredients normalizing to `"all purpose flour"` only the
later `original` is retrievable. -/
theorem C4_index_last_write_wins (ings : List ExtendedIngredient) (k : String) :
    dictGet? (build_ingredient_original_map ings) k =
      (ings.reverse.find? fun ing => normalize_ingredient_name ing.name = k).map
        ExtendedIngredient.original ∧
    dictGet? (build_ingredient_original_map
        [⟨"all-purpose flour", "2 cups sifted flour"⟩, ⟨"All Purpose Flour!", "1 cup flour"⟩])
      "all purpose flour" = some "1 cup flour" :=
  ⟨build_map_last_wins ings k, by decide⟩

/-- C5: the sanitizer strips a fenced wrapper and parses JSON:
` ```json\n{"a":1}\n``` ` parses to the object `{a: 1}`; `"not json"` and the
empty string yield `none` (the reported-parse-failure value), and any input
whose stripped remainder fails to parse yields `none` — the sanitizer is a
total function, never an uncaught fault. -/
theorem C5_sanitizer (raw : String) :
    sanitize_llm_json "```json\n\x7b\"a\":1\x7d\n```" = some (.jobj [("a", .jnum (mkRat 1 1))]) ∧
    sanitize_llm_json "not json" = none ∧
    sanitize_llm_json "" = none ∧
    (json_loads ⟨pyStrip (stripTrailFence (stripLeadFence (pyStrip raw.data)))⟩ = none →
      sanitize_llm_json raw = none) :=
  ⟨rfl, rfl, rfl, fun h => h⟩

theorem C5_sanitizer_witness : sanitize_llm_json "not json" = none :=
  (C5_sanitizer "not json").2.2.2 rfl

/-- C6: the nutrition parser returns the first numeric substring, with a
trailing `g` exactly when `g` immediately follows the number
(`"447 calories" ↦ "447"`, `"8g of protein" ↦ "8g"`, decimals such as
`"2.5g" ↦ "2.5g"`), and returns the input unchanged when it contains no
digit. -/
theorem C6_parse_nutrition (s : String) :
    parse_nutrition_value "447 calories" = "447" ∧
    parse_nutrition_value "8g of protein" = "8g" ∧
    parse_nutrition_value "no numbers here" = "no numbers here" ∧
    parse_nutrition_value "2.5g" = "2.5g" ∧
    ((∀ c ∈ s.data, digitChar c = false) → parse_nutrition_value s = s) := by
  refine ⟨by decide, by decide, by decide, by decide, fun h => ?_⟩
  simp only [parse_nutrition_value, firstNumMatch_eq_none h]

theorem C6_parse_nutrition_witness : parse_nutrition_value "no digits" = "no digits" :=
  (C6_parse_nutrition "no digits").2.2.2.2 (by decide)

/-- C7: the normalizer is total (a Lean function) and idempotent, and
`normalize("All-Purpose Flour!") = "all purpose flour"`. -/
theorem C7_normalizer_idempotent (s : String) :
    normalize_ingredient_name (normalize_ingredient_name s) = normalize_ingredient_name s ∧
    normalize_ingredient_name "All-Purpose Flour!" = "all purpose flour" :=
  ⟨normalize_idem s, by decide⟩

/-- C8: the equipment collector returns the lexicographically sorted,
duplicate-free sequence of exactly the equipment names occurring in any step
of any instruction group; an equipment-free traversal yields `[]`, and
duplicates across steps collapse (concrete check). -/
theorem C8_equipment_collector (r : RecipeData) :
    List.Sorted strLeP (extract_unique_equipment r) ∧
    (extract_unique_equipment r).Nodup ∧
    (∀ name : String, name ∈ extract_unique_equipment r ↔
      ∃ instr ∈ r.analyzedInstructions, ∃ s ∈ instr.steps, ∃ e ∈ s.equipment, e.name = name) ∧
    ((∀ instr ∈ r.analyzedInstructions, instr.steps = []) → extract_unique_equipment r = []) ∧
    extract_unique_equipment
      ⟨[⟨[⟨1, "s1", [⟨"pan"⟩, ⟨"bowl"⟩], []⟩, ⟨2, "s2", [⟨"pan"⟩], []⟩]⟩], [], none, ""⟩ =
      ["bowl", "pan"] := by
  have hmem : ∀ name : String, name ∈ extract_unique_equipment r ↔
      ∃ instr ∈ r.analyzedInstructions, ∃ s ∈ instr.steps, ∃ e ∈ s.equipment, e.name = name := by
    intro name
    rw [extract_unique_equipment, List.mem_insertionSort, List.mem_dedup, allEquipmentNames]
    simp only [List.mem_flatMap, List.mem_map]
  refine ⟨List.sorted_insertionSort strLeP _,
    ((List.perm_insertionSort strLeP _).symm.nodup (List.nodup_dedup _)), hmem, ?_, by decide⟩
  intro h
  apply List.eq_nil_iff_forall_not_mem.mpr
  intro name hname
  obtain ⟨instr, hi, s, hs, _⟩ := (hmem name).mp hname
  rw [h instr hi] at hs
  exact absurd hs (List.not_mem_nil s)

theorem C8_equipment_collector_witness :
    extract_unique_equipment ⟨[⟨[]⟩], [], none, ""⟩ = [] :=
  (C8_equipment_collector ⟨[⟨[]⟩], [], none, ""⟩).2.2.2.1
    (fun instr h => by rw [List.mem_singleton] at h; rw [h])

/-- C9: a single bold span contributes to at most one category with fixed
priority: a span whose lowercased text contains `"calories"` is stored under
`Calories` (protein/fat untouched) even if it also mentions protein or fat; a
span containing `"protein"` but not `"calories"` is stored under `Protein`
(fat untouched) even if it also mentions fat. -/
theorem C9_span_priority (n : NutritionFacts) (text : String) :
    (matchesCalories text = true →
      routeSpan n text = { n with calories := some (parse_nutrition_value text) }) ∧
    (matchesCalories text = false → strContains (lowerStr text) "protein" = true →
      routeSpan n text = { n with protein := some (parse_nutrition_value text) }) := by
  constructor
  · intro h
    rw [matchesCalories] at h
    rw [routeSpan]
    simp only [h, if_true]
  · intro h1 h2
    rw [matchesCalories] at h1
    rw [routeSpan]
    simp only [h1, h2, if_true, Bool.false_eq_true, if_false]

theorem C9_span_priority_witness :
    routeSpan ⟨none, none, none⟩ "300 calories, 10g of protein and 5g of fat" =
      ⟨some "300", none, none⟩ ∧
    routeSpan ⟨none, none, none⟩ "10g of protein and 5g of fat" = ⟨none, some "10g", none⟩ :=
  ⟨((C9_span_priority ⟨none, none, none⟩ _).1 (by decide)).trans (by decide),
    ((C9_span_priority ⟨none, none, none⟩ _).2 (by decide) (by decide)).trans (by decide)⟩

/-- C10: whenever the step-amount map is truthy (non-empty) and holds the
step's number as a key, the fallback display of recipe-provided step
ingredients is never used — an empty per-step dict shows nothing at all; the
fallback appears only when the map is `None`, empty, or lacks the key. -/
theorem C10_step_display :
    (∀ (m : List (String × List (String × String))) (num : Nat)
        (ings : List StepIngredientRef) (pr : String × List (String × String)),
      (m.find? fun p => p.1 = toString num) = some pr →
        (∀ names, stepDisplay (some m) num ings ≠ .fallback names) ∧
        (pr.2 = [] → stepDisplay (some m) num ings = .nothing)) ∧
    (∀ (map? : Option (List (String × List (String × String)))) (num : Nat)
        (ings : List StepIngredientRef) (names : List String),
      stepDisplay map? num ings = .fallback names →
        map? = none ∨ map? = some [] ∨
        ∃ m, map? = some m ∧ (m.find? fun p => p.1 = toString num) = none) := by
  constructor
  · intro m num ings pr hf
    have hm : m ≠ [] := by
      intro h
      rw [h] at hf
      simp at hf
    constructor
    · intro names
      simp only [stepDisplay, if_neg hm, hf]
      split <;> simp
    · intro hempty
      simp only [stepDisplay, if_neg hm, hf, hempty, if_true]
  · intro map? num ings names h
    match map? with
    | none => exact Or.inl rfl
    | some m =>
      by_cases hm : m = []
      · rw [hm]
        exact Or.inr (Or.inl rfl)
      · refine Or.inr (Or.inr ⟨m, rfl, ?_⟩)
        rcases hf : m.find? fun p => p.1 = toString num with _ | pr
        · exact hf
        · simp only [stepDisplay, if_neg hm, hf] at h
          split at h <;> simp at h

theorem C10_step_display_witness :
    stepDisplay (some [("2", [])]) 2 [⟨"salt"⟩] = .nothing ∧
    (∀ names, stepDisplay (some [("2", [])]) 2 [⟨"salt"⟩] ≠ .fallback names) := by
  have h := C10_step_display.1 [("2", [])] 2 [⟨"salt"⟩] ("2", []) (by decide)
  exact ⟨h.2 rfl, h.1⟩

end Recipe
